import Mathlib

/-!
Shallow embedding of `src/include/rank_filter.hxx` (`rank_filter::lineRankOrderFilter1D`).

The C++ routine maintains
* `sorted_window`  : a `boost::container::set` of pairs `(value, seq)` ordered by
  `std::less<std::pair<T,size_t>>` (lexicographic: value first, sequence index second);
* `window_iters`   : a deque of set iterators in insertion (sequence) order;
* `rank_point`     : a set iterator marking the current output sample.

Since every stored pair carries a distinct sequence index, a set iterator is faithfully
modelled by the pair it designates; the set itself by a strictly sorted list of pairs.
Moving an iterator (`--it` / `++it`) is modelled by looking up the neighbouring element
in the sorted list.  The `double rank` parameter is modelled by an exact rational
(`boost::math::round` rounds half away from zero).  `size_t` arithmetic is modelled by `ℕ`.
-/

namespace RankFilter

open List

set_option linter.unusedSectionVars false
set_option linter.unusedVariables false

variable {α : Type*} [LinearOrder α] [Inhabited α]

/-- The strict order `std::less<std::pair<T,size_t>>` used by `sorted_window`:
lexicographic on (value, sequence index). -/
def pairLt (p q : α × ℕ) : Prop :=
  p.1 < q.1 ∨ (p.1 = q.1 ∧ p.2 < q.2)

instance instDecPairLt (p q : α × ℕ) : Decidable (pairLt p q) :=
  inferInstanceAs (Decidable (p.1 < q.1 ∨ (p.1 = q.1 ∧ p.2 < q.2)))

/-- Erase for `sorted_window`: delete the node a (valid) iterator designates.  Since all
stored pairs are distinct, deleting the first occurrence of the pair is exact. -/
def erasePair (q : α × ℕ) : List (α × ℕ) → List (α × ℕ)
  | [] => []
  | y :: l => if y = q then l else y :: erasePair q l

/-- Insert for `sorted_window`: place a pair at its ordered position.  (In the algorithm the
inserted pair always carries a fresh sequence index, so it is never equivalent to a
stored one.) -/
def insertSorted (x : α × ℕ) : List (α × ℕ) → List (α × ℕ)
  | [] => [x]
  | y :: l => if pairLt x y then x :: y :: l else y :: insertSorted x l

/-- Ordinal position of the iterator pointing at `x`: the number of stored samples that
compare `pairLt`-strictly below `x`.  For a sorted window containing `x` this is the
distance from `begin()` to the iterator. -/
def idxOf (l : List (α × ℕ)) (x : α × ℕ) : ℕ :=
  l.countP (fun y => decide (pairLt y x))

/-- Decrement of a set iterator: the element one ordinal position before `x` in the sorted
window `l`. -/
def iterPred (l : List (α × ℕ)) (x : α × ℕ) : α × ℕ :=
  l.getD (idxOf l x - 1) x

/-- Increment of a set iterator: the element one ordinal position after `x` in the sorted
window `l`. -/
def iterSucc (l : List (α × ℕ)) (x : α × ℕ) : α × ℕ :=
  l.getD (idxOf l x + 1) x

/-- Branch condition of the first roll-forward case
(`rank_value < prev_value && rank_value <= next_value`). -/
def rollCaseA (rv pv nv : α) : Prop := rv < pv ∧ rv ≤ nv

/-- Branch condition of the second roll-forward case
(`rank_value >= prev_value && rank_value > next_value`). -/
def rollCaseB (rv pv nv : α) : Prop := rv ≥ pv ∧ rv > nv

/-- Branch condition of the third roll-forward case
(`rank_value < prev_value && rank_value > next_value`). -/
def rollCaseC (rv pv nv : α) : Prop := rv < pv ∧ rv > nv

/-- Branch condition of the fourth roll-forward case
(`rank_value >= prev_value && rank_value <= next_value`). -/
def rollCaseD (rv pv nv : α) : Prop := rv ≥ pv ∧ rv ≤ nv

instance instDecRollCaseA (rv pv nv : α) : Decidable (rollCaseA rv pv nv) :=
  inferInstanceAs (Decidable (rv < pv ∧ rv ≤ nv))

instance instDecRollCaseB (rv pv nv : α) : Decidable (rollCaseB rv pv nv) :=
  inferInstanceAs (Decidable (rv ≥ pv ∧ rv > nv))

instance instDecRollCaseC (rv pv nv : α) : Decidable (rollCaseC rv pv nv) :=
  inferInstanceAs (Decidable (rv < pv ∧ rv > nv))

instance instDecRollCaseD (rv pv nv : α) : Decidable (rollCaseD rv pv nv) :=
  inferInstanceAs (Decidable (rv ≥ pv ∧ rv ≤ nv))

/-- State of the engine between roll-forward iterations (lines 59-110 of the source):
the sorted window, the sequence-ordered deque of handles, the rank cursor, the
`values_seen` counter, the unconsumed suffix of the source, the right-reflection
counter `window_reflect_pos`, and the destination written so far. -/
structure FilterState (α : Type*) where
  sortedWindow : List (α × ℕ)
  windowIters : List (α × ℕ)
  rankPoint : α × ℕ
  valuesSeen : ℕ
  srcRest : List α
  windowReflectPos : ℕ
  dest : List α

/-- The four-case update of the sorted window and the rank cursor (lines 137-176).
Returns the new sorted window, the new cursor, and whether a branch was taken
(each branch pushes the freshly inserted handle; the implicit fall-through would not).
The order of `insert`, `--`/`++`, and `erase` inside each branch mirrors the source. -/
def updateCursor (sortedWindow : List (α × ℕ)) (rankPoint prevPair nextPair : α × ℕ) :
    List (α × ℕ) × (α × ℕ) × Bool :=
  let rankValue := rankPoint.1
  let prevValue := prevPair.1
  let nextValue := nextPair.1
  if rollCaseA rankValue prevValue nextValue then
    (insertSorted nextPair (erasePair prevPair sortedWindow), rankPoint, true)
  else if rollCaseB rankValue prevValue nextValue then
    if rankPoint = prevPair then
      let augmented := insertSorted nextPair sortedWindow
      (erasePair prevPair augmented, iterPred augmented rankPoint, true)
    else
      (insertSorted nextPair (erasePair prevPair sortedWindow), rankPoint, true)
  else if rollCaseC rankValue prevValue nextValue then
    let w := insertSorted nextPair (erasePair prevPair sortedWindow)
    (w, iterPred w rankPoint, true)
  else if rollCaseD rankValue prevValue nextValue then
    if rankPoint = prevPair then
      let augmented := insertSorted nextPair sortedWindow
      (erasePair prevPair augmented, iterSucc augmented rankPoint, true)
    else
      let w := insertSorted nextPair (erasePair prevPair sortedWindow)
      (w, iterSucc w rankPoint, true)
  else
    (sortedWindow, rankPoint, false)

/-- Shared tail of one loop iteration, once the incoming value, the remaining source and
the new reflection counter are determined: pop the front handle, run the four-case
update, push the new handle, advance `values_seen`, and write the cursor's value. -/
def rollStepCore (s : FilterState α) (nextValue : α) (srcRest' : List α) (wrp' : ℕ) :
    FilterState α :=
  let prevPair := s.windowIters.headD (default, 0)
  let iters1 := s.windowIters.tail
  let valuesSeen' := s.valuesSeen + 1
  let nextPair : α × ℕ := (nextValue, valuesSeen')
  let u := updateCursor s.sortedWindow s.rankPoint prevPair nextPair
  { sortedWindow := u.1
    windowIters := if u.2.2 then iters1 ++ [nextPair] else iters1
    rankPoint := u.2.1
    valuesSeen := valuesSeen'
    srcRest := srcRest'
    windowReflectPos := wrp'
    dest := s.dest ++ [u.2.1.1] }

/-- One iteration of the roll-forward loop (lines 111-180): the incoming value is the
next source sample while the source is not exhausted, and otherwise the value of the
handle at `window_reflect_pos - 2` of the (already popped) deque — the right-boundary
reflection. -/
def rollStep (s : FilterState α) : FilterState α :=
  match s.srcRest with
  | v :: rest => rollStepCore s v rest s.windowReflectPos
  | [] =>
      rollStepCore s ((s.windowIters.tail.getD (s.windowReflectPos - 2) (default, 0)).1)
        [] (s.windowReflectPos - 2)

/-- The roll-forward loop `while (src_not_empty || (window_reflect_pos > 0))`, with
explicit fuel (the caller supplies fuel exceeding the iteration count, which the
development proves is exactly `|source| - 1`). -/
def rollLoop : ℕ → FilterState α → FilterState α
  | 0, s => s
  | fuel + 1, s =>
      if s.srcRest ≠ [] ∨ 0 < s.windowReflectPos then rollLoop fuel (rollStep s) else s

/-- The initialization phase (lines 59-109): build `window_init` (`window_init[j] =
src[half_length - j]`), insert its first `half_length` entries in order, then insert
`window_init.back()` repeatedly while popping, assign `values_seen` as each pair enters,
locate the cursor by advancing `rank_pos` positions from `begin()`, and write the first
output. -/
def initState (src : List α) (hl : ℕ) (rank_pos : ℕ) : FilterState α :=
  let window_init := (src.take (hl + 1)).reverse
  let seqVals := window_init.take hl ++ window_init.reverse
  let initPairs := seqVals.zip (List.range (2 * hl + 1))
  let sortedW := initPairs.foldl (fun acc p => insertSorted p acc) []
  let rankPoint := sortedW.getD rank_pos (default, 0)
  { sortedWindow := sortedW
    windowIters := initPairs
    rankPoint := rankPoint
    valuesSeen := 2 * hl + 1
    srcRest := src.drop (hl + 1)
    windowReflectPos := 2 * hl
    dest := [rankPoint.1] }

/-- The whole filter for a given ordinal `rank_pos`: initialize, then roll forward. -/
def runFilter (src : List α) (hl : ℕ) (rank_pos : ℕ) : List α :=
  (rollLoop (src.length + 2 * hl) (initState src hl rank_pos)).dest

/-- Rounding of `boost::math::round`: round to nearest, halves away from zero (modelled on exact
rationals). -/
def boostRound (x : ℚ) : ℤ :=
  if x < 0 then -(⌊-x + 1 / 2⌋) else ⌊x + 1 / 2⌋

/-- Line 98: `rank_pos = static_cast<size_t>(boost::math::round(rank * length_sub_1))`. -/
def rankPosOf (rank : ℚ) (hl : ℕ) : ℕ :=
  (boostRound (rank * (2 * hl))).toNat

/-- The filter `lineRankOrderFilter1D` on a source sequence, with `half_length = hl` and rank
`rank`: the destination contents after the call. -/
def lineRankOrderFilter1D (src : List α) (hl : ℕ) (rank : ℚ) : List α :=
  runFilter src hl (rankPosOf rank hl)

/-- The three precondition-violation kinds of the error taxonomy (spec section 7);
the source checks them as `assert`s at lines 51-57, before touching any state. -/
inductive RankFilterError : Type
  | WindowTooLarge : RankFilterError
  | DestinationTooSmall : RankFilterError
  | RankOutOfRange : RankFilterError
deriving DecidableEq

/-- The guarded entry point: the three eager precondition checks (in source order:
destination capacity at line 51, window size at line 54, rank range at line 57),
then the unconditional run.  `destLen` is `std::distance(dest_begin, dest_end)`. -/
def lineRankOrderFilter1DChecked (src : List α) (destLen : ℕ) (hl : ℕ) (rank : ℚ) :
    Except RankFilterError (List α) :=
  if ¬ (src.length ≤ destLen) then .error .DestinationTooSmall
  else if ¬ (hl + 1 ≤ src.length) then .error .WindowTooLarge
  else if ¬ (0 ≤ rank ∧ rank ≤ 1) then .error .RankOutOfRange
  else .ok (lineRankOrderFilter1D src hl rank)

/-- Reflected index into a sequence of length `n`: mirror at `0` and at `n - 1`.
Used only for `-(n-1) ≤ t ≤ 2(n-1)`, one reflection at each end. -/
def reflectIdx (n : ℕ) (t : ℤ) : ℕ :=
  if t < 0 then (-t).toNat
  else if t < n then t.toNat
  else (2 * ((n : ℤ) - 1) - t).toNat

/-- The boundary-reflected window of `2*hl+1` source values centered at position `p`. -/
def reflWindow (src : List α) (hl : ℕ) (p : ℕ) : List α :=
  (List.range (2 * hl + 1)).map
    (fun j : ℕ => src.getD (reflectIdx src.length ((p : ℤ) - (hl : ℤ) + (j : ℤ))) default)

/-- Brute-force reference output (spec section 8, "Order-statistic correctness"):
independently sort each reflected window and take the `rank_pos`-th smallest. -/
def bruteRankFilter (src : List α) (hl : ℕ) (rank_pos : ℕ) : List α :=
  (List.range src.length).map
    (fun p => ((reflWindow src hl p).insertionSort (· ≤ ·)).getD rank_pos default)

/-- The engine state just before loop iteration `p` (equivalently, after `p` roll-forward
iterations; `p + 1` outputs have been written). -/
def stateAt (src : List α) (hl rank_pos p : ℕ) : FilterState α :=
  rollStep^[p] (initState src hl rank_pos)

/-- The master invariant of the engine, indexed by the iteration count `p`. -/
structure Inv (src : List α) (hl rank_pos p : ℕ) (s : FilterState α) : Prop where
  iters_fst : s.windowIters.map Prod.fst = reflWindow src hl p
  iters_snd_mono : s.windowIters.Pairwise (fun a b => a.2 < b.2)
  iters_snd_le : ∀ q ∈ s.windowIters, q.2 ≤ s.valuesSeen
  window_perm : s.sortedWindow ~ s.windowIters
  window_sorted : s.sortedWindow.Pairwise pairLt
  rank_mem : s.rankPoint ∈ s.sortedWindow
  rank_idx : idxOf s.sortedWindow s.rankPoint = rank_pos
  seen : s.valuesSeen = 2 * hl + 1 + p
  src_rest : s.srcRest = src.drop (p + hl + 1)
  reflect_pos : s.windowReflectPos = min (2 * hl) (2 * (src.length - 1 - p))
  dest_eq : s.dest = (List.range (p + 1)).map
    (fun q => ((reflWindow src hl q).insertionSort (· ≤ ·)).getD rank_pos default)

/-! ### Order facts about `pairLt` -/

theorem pairLt_irrefl (x : α × ℕ) : ¬ pairLt x x := by
  simp [pairLt]

theorem pairLt_trans {x y z : α × ℕ} (h₁ : pairLt x y) (h₂ : pairLt y z) : pairLt x z := by
  rcases h₁ with h₁ | ⟨e₁, h₁⟩ <;> rcases h₂ with h₂ | ⟨e₂, h₂⟩
  · exact Or.inl (h₁.trans h₂)
  · exact Or.inl (e₂ ▸ h₁)
  · exact Or.inl (e₁ ▸ h₂)
  · exact Or.inr ⟨e₁.trans e₂, h₁.trans h₂⟩

theorem pairLt_asymm {x y : α × ℕ} (h : pairLt x y) : ¬ pairLt y x := by
  intro h'
  exact pairLt_irrefl x (pairLt_trans h h')

theorem pairLt_connex {x y : α × ℕ} (h : x ≠ y) : pairLt x y ∨ pairLt y x := by
  rcases lt_trichotomy x.1 y.1 with hv | hv | hv
  · exact Or.inl (Or.inl hv)
  · rcases lt_trichotomy x.2 y.2 with hs | hs | hs
    · exact Or.inl (Or.inr ⟨hv, hs⟩)
    · exact absurd (Prod.ext hv hs) h
    · exact Or.inr (Or.inr ⟨hv.symm, hs⟩)
  · exact Or.inr (Or.inl hv)

/-! ### `insertSorted` -/

theorem insertSorted_perm (x : α × ℕ) (l : List (α × ℕ)) : insertSorted x l ~ x :: l := by
  induction l with
  | nil => rfl
  | cons y t ih =>
      rw [insertSorted]
      split
      · rfl
      · exact (ih.cons y).trans (List.Perm.swap x y t)

theorem mem_insertSorted {x z : α × ℕ} {l : List (α × ℕ)} :
    z ∈ insertSorted x l ↔ z = x ∨ z ∈ l := by
  rw [(insertSorted_perm x l).mem_iff, List.mem_cons]

theorem insertSorted_length (x : α × ℕ) (l : List (α × ℕ)) :
    (insertSorted x l).length = l.length + 1 := by
  simpa using (insertSorted_perm x l).length_eq

theorem insertSorted_sorted {x : α × ℕ} {l : List (α × ℕ)}
    (hs : l.Pairwise pairLt) (hx : x ∉ l) : (insertSorted x l).Pairwise pairLt := by
  induction l with
  | nil => simp [insertSorted]
  | cons y t ih =>
      rw [List.pairwise_cons] at hs
      rw [insertSorted]
      split
      · rename_i hxy
        refine List.Pairwise.cons ?_ (List.Pairwise.cons hs.1 hs.2)
        intro b hb
        rcases List.mem_cons.mp hb with rfl | hb
        · exact hxy
        · exact pairLt_trans hxy (hs.1 b hb)
      · rename_i hxy
        have hxy' : pairLt y x := by
          rcases pairLt_connex (show x ≠ y by intro e; exact hx (e ▸ List.mem_cons_self x t))
            with h | h
          · exact absurd h hxy
          · exact h
        refine List.Pairwise.cons ?_ (ih hs.2 (fun h => hx (List.mem_cons_of_mem y h)))
        intro b hb
        rcases mem_insertSorted.mp hb with rfl | hb
        · exact hxy'
        · exact hs.1 b hb

/-! ### `idxOf` -/

theorem idxOf_perm {l l' : List (α × ℕ)} (h : l ~ l') (x : α × ℕ) :
    idxOf l x = idxOf l' x :=
  h.countP_eq _

theorem idxOf_cons (y : α × ℕ) (l : List (α × ℕ)) (x : α × ℕ) :
    idxOf (y :: l) x = idxOf l x + if pairLt y x then 1 else 0 := by
  simp [idxOf, List.countP_cons]

theorem idxOf_lt_length {l : List (α × ℕ)} {x : α × ℕ} (hx : x ∈ l) :
    idxOf l x < l.length := by
  rcases lt_or_eq_of_le (List.countP_le_length (p := fun y => decide (pairLt y x)) (l := l))
    with h | h
  · exact h
  · exfalso
    have := (List.countP_eq_length.mp h) x hx
    simp at this
    exact pairLt_irrefl x this

theorem idxOf_insertSorted (y : α × ℕ) (l : List (α × ℕ)) (x : α × ℕ) :
    idxOf (insertSorted y l) x = idxOf l x + if pairLt y x then 1 else 0 := by
  rw [idxOf_perm (insertSorted_perm y l), idxOf_cons]

theorem erasePair_perm {l : List (α × ℕ)} {q : α × ℕ} (hq : q ∈ l) :
    l ~ q :: erasePair q l := by
  induction l with
  | nil => simp at hq
  | cons y t ih =>
      rw [erasePair]
      split
      · rename_i h
        exact h ▸ List.Perm.refl _
      · rename_i h
        have hq' : q ∈ t := by
          rcases List.mem_cons.mp hq with e | hq'
          · exact absurd e.symm h
          · exact hq'
        exact ((ih hq').cons y).trans (List.Perm.swap q y _)

theorem erasePair_sublist (q : α × ℕ) (l : List (α × ℕ)) : erasePair q l <+ l := by
  induction l with
  | nil => simp [erasePair]
  | cons y t ih =>
      rw [erasePair]
      split
      · exact (List.sublist_cons_self y t)
      · exact ih.cons₂ y

theorem mem_erasePair_of_ne {l : List (α × ℕ)} {z q : α × ℕ} (hz : z ≠ q) :
    z ∈ erasePair q l ↔ z ∈ l := by
  induction l with
  | nil => simp [erasePair]
  | cons y t ih =>
      rw [erasePair]
      split
      · rename_i h
        subst h
        simp [List.mem_cons, (by exact hz : z ≠ y)]
      · simp [List.mem_cons, ih]

theorem idxOf_erasePair {l : List (α × ℕ)} {q : α × ℕ} (hq : q ∈ l) (x : α × ℕ) :
    idxOf l x = idxOf (erasePair q l) x + if pairLt q x then 1 else 0 := by
  rw [idxOf_perm (erasePair_perm hq), idxOf_cons]

theorem erasePair_length {l : List (α × ℕ)} {q : α × ℕ} (hq : q ∈ l) :
    (erasePair q l).length + 1 = l.length := by
  simpa using (erasePair_perm hq).length_eq.symm

theorem idxOf_get {l : List (α × ℕ)} (hs : l.Pairwise pairLt) {k : ℕ} (hk : k < l.length) :
    idxOf l (l.get ⟨k, hk⟩) = k := by
  induction l generalizing k with
  | nil => simp at hk
  | cons a t ih =>
      rw [List.pairwise_cons] at hs
      match k with
      | 0 =>
          show idxOf (a :: t) a = 0
          rw [idxOf_cons, if_neg (pairLt_irrefl a)]
          have : idxOf t a = 0 := by
            rw [idxOf, List.countP_eq_zero]
            intro b hb
            simp only [decide_eq_true_eq]
            exact fun h => pairLt_asymm (hs.1 b hb) h
          omega
      | k + 1 =>
          have hk' : k < t.length := by simpa using hk
          show idxOf (a :: t) (t.get ⟨k, hk'⟩) = k + 1
          rw [idxOf_cons, ih hs.2 hk', if_pos (hs.1 _ (List.get_mem t k hk'))]

theorem get_idxOf {l : List (α × ℕ)} (hs : l.Pairwise pairLt) {x : α × ℕ} (hx : x ∈ l) :
    l.get ⟨idxOf l x, idxOf_lt_length hx⟩ = x := by
  obtain ⟨⟨k, hk⟩, hget⟩ := List.mem_iff_get.mp hx
  have hidx : idxOf l x = k := by rw [← hget, idxOf_get hs]
  simp only [hidx]
  exact hget

theorem erasePair_sorted {l : List (α × ℕ)} (hs : l.Pairwise pairLt) (q : α × ℕ) :
    (erasePair q l).Pairwise pairLt :=
  hs.sublist (erasePair_sublist q l)

theorem getD_eq_get {β : Type*} {l : List β} {n : ℕ} (d : β) (h : n < l.length) :
    l.getD n d = l.get ⟨n, h⟩ := by
  simp [List.getD_eq_getElem?_getD, List.getElem?_eq_getElem h]

/-! ### `iterPred` and `iterSucc` -/

theorem iterPred_spec {l : List (α × ℕ)} {x : α × ℕ}
    (hs : l.Pairwise pairLt) (hx : x ∈ l) (hk : 1 ≤ idxOf l x) :
    iterPred l x ∈ l ∧ idxOf l (iterPred l x) = idxOf l x - 1 ∧ pairLt (iterPred l x) x := by
  have hlt : idxOf l x < l.length := idxOf_lt_length hx
  have hlt' : idxOf l x - 1 < l.length := by omega
  have hpred : iterPred l x = l.get ⟨idxOf l x - 1, hlt'⟩ := getD_eq_get x hlt'
  refine ⟨hpred ▸ List.get_mem l _ hlt', ?_, ?_⟩
  · rw [hpred, idxOf_get hs]
  · have := List.pairwise_iff_get.mp hs ⟨idxOf l x - 1, hlt'⟩ ⟨idxOf l x, hlt⟩ (by simp; omega)
    rw [get_idxOf hs hx] at this
    rw [hpred]
    exact this

theorem iterSucc_spec {l : List (α × ℕ)} {x : α × ℕ}
    (hs : l.Pairwise pairLt) (hx : x ∈ l) (hk : idxOf l x + 1 < l.length) :
    iterSucc l x ∈ l ∧ idxOf l (iterSucc l x) = idxOf l x + 1 ∧ pairLt x (iterSucc l x) := by
  have hlt : idxOf l x < l.length := idxOf_lt_length hx
  have hsucc : iterSucc l x = l.get ⟨idxOf l x + 1, hk⟩ := getD_eq_get x hk
  refine ⟨hsucc ▸ List.get_mem l _ hk, ?_, ?_⟩
  · rw [hsucc, idxOf_get hs]
  · have := List.pairwise_iff_get.mp hs ⟨idxOf l x, hlt⟩ ⟨idxOf l x + 1, hk⟩ (by simp)
    rw [get_idxOf hs hx] at this
    rw [hsucc]
    exact this

/-! ### The four-case cursor update -/

/-- Correctness of the four-case update (lines 137-176): under the window invariants —
sorted window, cursor at ordinal `k`, departing sample oldest (minimal sequence index),
arriving sample fresh (maximal sequence index) — a branch is always taken, the window
contents become `{next} ∪ window \ {prev}`, sortedness is preserved, and the cursor
again sits at ordinal `k`. -/
theorem updateCursor_spec {L : List (α × ℕ)} {r pp np : α × ℕ} {k : ℕ}
    (H1 : L.Pairwise pairLt) (H2 : r ∈ L) (H3 : idxOf L r = k)
    (H4 : pp ∈ L) (H5 : ∀ q ∈ L, q ≠ pp → pp.2 < q.2) (H6 : ∀ q ∈ L, q.2 < np.2) :
    (updateCursor L r pp np).2.2 = true ∧
    (updateCursor L r pp np).1 ~ np :: erasePair pp L ∧
    (updateCursor L r pp np).1.Pairwise pairLt ∧
    (updateCursor L r pp np).2.1 ∈ (updateCursor L r pp np).1 ∧
    idxOf (updateCursor L r pp np).1 (updateCursor L r pp np).2.1 = k := by
  have hrnp : r.2 < np.2 := H6 r H2
  have hnpL : np ∉ L := fun h => absurd (H6 np h) (lt_irrefl _)
  have hkL : k < L.length := H3 ▸ idxOf_lt_length H2
  have hnpE : np ∉ erasePair pp L := fun h => hnpL ((erasePair_sublist pp L).mem h)
  have hsE : (erasePair pp L).Pairwise pairLt := erasePair_sorted H1 pp
  have hsW : (insertSorted np (erasePair pp L)).Pairwise pairLt := insertSorted_sorted hsE hnpE
  have hsAug : (insertSorted np L).Pairwise pairLt := insertSorted_sorted H1 hnpL
  have hppAug : pp ∈ insertSorted np L := mem_insertSorted.mpr (Or.inr H4)
  have hrAug : r ∈ insertSorted np L := mem_insertSorted.mpr (Or.inr H2)
  have hpermAug : erasePair pp (insertSorted np L) ~ np :: erasePair pp L := by
    have h1 : insertSorted np L ~ pp :: erasePair pp (insertSorted np L) :=
      erasePair_perm hppAug
    have h2 : insertSorted np L ~ np :: L := insertSorted_perm np L
    have h3 : (np : α × ℕ) :: L ~ np :: pp :: erasePair pp L :=
      (erasePair_perm H4).cons np
    exact ((h1.symm.trans (h2.trans h3)).trans (List.Perm.swap pp np _)).cons_inv
  simp only [updateCursor]
  by_cases hA : rollCaseA r.1 pp.1 np.1
  · -- case a: rank_value < prev_value and rank_value <= next_value
    rw [if_pos hA]
    dsimp only
    simp only [rollCaseA] at hA
    have hrpp : r ≠ pp := fun e => absurd hA.1 (by rw [e]; exact lt_irrefl _)
    have hppr : ¬ pairLt pp r := by
      rintro (h | ⟨e, _⟩)
      · exact absurd (hA.1.trans h) (lt_irrefl _)
      · exact absurd e (ne_of_gt hA.1)
    have hnpr : ¬ pairLt np r := by
      rintro (h | ⟨e, hs⟩)
      · exact absurd (lt_of_le_of_lt hA.2 h) (lt_irrefl _)
      · exact absurd hs (by omega)
    have hrE : r ∈ erasePair pp L := (mem_erasePair_of_ne hrpp).mpr H2
    have hidxE : idxOf (erasePair pp L) r = k := by
      have := idxOf_erasePair H4 r
      rw [H3, if_neg hppr] at this
      omega
    refine ⟨rfl, insertSorted_perm np _, hsW, mem_insertSorted.mpr (Or.inr hrE), ?_⟩
    rw [idxOf_insertSorted, hidxE, if_neg hnpr]
    omega
  rw [if_neg hA]
  by_cases hB : rollCaseB r.1 pp.1 np.1
  · rw [if_pos hB]
    simp only [rollCaseB] at hB
    have hnpr : pairLt np r := Or.inl hB.2
    by_cases heqB : r = pp
    · -- case b, cursor departing: insert, move back, erase
      rw [if_pos heqB]
      dsimp only
      have hidxAug : idxOf (insertSorted np L) r = k + 1 := by
        rw [idxOf_insertSorted, H3, if_pos hnpr]
      obtain ⟨hpm, hpidx, hplt⟩ :=
        iterPred_spec hsAug hrAug (by rw [hidxAug]; omega)
      rw [hidxAug] at hpidx
      have hppred : iterPred (insertSorted np L) r ≠ pp := by
        intro e
        rw [← heqB] at e
        rw [e] at hplt
        exact pairLt_irrefl r hplt
      refine ⟨rfl, hpermAug, erasePair_sorted hsAug pp,
        (mem_erasePair_of_ne hppred).mpr hpm, ?_⟩
      have := idxOf_erasePair hppAug (iterPred (insertSorted np L) r)
      rw [hpidx, if_neg (by rw [← heqB]; exact pairLt_asymm hplt)] at this
      omega
    · -- case b, cursor not departing: erase, insert, no move
      rw [if_neg heqB]
      dsimp only
      have hppr : pairLt pp r := by
        rcases lt_or_eq_of_le hB.1 with h | h
        · exact Or.inl h
        · exact Or.inr ⟨h, H5 r H2 heqB⟩
      have hrE : r ∈ erasePair pp L := (mem_erasePair_of_ne heqB).mpr H2
      have hidxE : idxOf (erasePair pp L) r + 1 = k := by
        have := idxOf_erasePair H4 r
        rw [H3, if_pos hppr] at this
        omega
      refine ⟨rfl, insertSorted_perm np _, hsW, mem_insertSorted.mpr (Or.inr hrE), ?_⟩
      rw [idxOf_insertSorted, if_pos hnpr]
      omega
  rw [if_neg hB]
  by_cases hC : rollCaseC r.1 pp.1 np.1
  · -- case c: erase, insert, move back
    rw [if_pos hC]
    dsimp only
    simp only [rollCaseC] at hC
    have hrpp : r ≠ pp := fun e => absurd hC.1 (by rw [e]; exact lt_irrefl _)
    have hppr : ¬ pairLt pp r := by
      rintro (h | ⟨e, _⟩)
      · exact absurd (hC.1.trans h) (lt_irrefl _)
      · exact absurd e (ne_of_gt hC.1)
    have hnpr : pairLt np r := Or.inl hC.2
    have hrE : r ∈ erasePair pp L := (mem_erasePair_of_ne hrpp).mpr H2
    have hidxE : idxOf (erasePair pp L) r = k := by
      have := idxOf_erasePair H4 r
      rw [H3, if_neg hppr] at this
      omega
    have hrW : r ∈ insertSorted np (erasePair pp L) := mem_insertSorted.mpr (Or.inr hrE)
    have hidxW : idxOf (insertSorted np (erasePair pp L)) r = k + 1 := by
      rw [idxOf_insertSorted, hidxE, if_pos hnpr]
    obtain ⟨hpm, hpidx, hplt⟩ := iterPred_spec hsW hrW (by rw [hidxW]; omega)
    rw [hidxW] at hpidx
    exact ⟨rfl, insertSorted_perm np _, hsW, hpm, by omega⟩
  rw [if_neg hC]
  by_cases hD : rollCaseD r.1 pp.1 np.1
  · rw [if_pos hD]
    simp only [rollCaseD] at hD
    have hrnp' : pairLt r np := by
      rcases lt_or_eq_of_le hD.2 with h | h
      · exact Or.inl h
      · exact Or.inr ⟨h, hrnp⟩
    by_cases heqD : r = pp
    · -- case d, cursor departing: insert, move forward, erase
      rw [if_pos heqD]
      dsimp only
      have hidxAug : idxOf (insertSorted np L) r = k := by
        rw [idxOf_insertSorted, H3, if_neg (pairLt_asymm hrnp')]
        omega
      obtain ⟨hpm, hpidx, hplt⟩ := iterSucc_spec hsAug hrAug (by
        rw [hidxAug, insertSorted_length]
        omega)
      rw [hidxAug] at hpidx
      have hppsucc : iterSucc (insertSorted np L) r ≠ pp := by
        intro e
        rw [← heqD] at e
        rw [e] at hplt
        exact pairLt_irrefl r hplt
      refine ⟨rfl, hpermAug, erasePair_sorted hsAug pp,
        (mem_erasePair_of_ne hppsucc).mpr hpm, ?_⟩
      have := idxOf_erasePair hppAug (iterSucc (insertSorted np L) r)
      rw [hpidx, if_pos (by rw [← heqD]; exact hplt)] at this
      omega
    · -- case d, cursor not departing: erase, insert, move forward
      rw [if_neg heqD]
      dsimp only
      have hppr : pairLt pp r := by
        rcases lt_or_eq_of_le hD.1 with h | h
        · exact Or.inl h
        · exact Or.inr ⟨h, H5 r H2 heqD⟩
      have hrE : r ∈ erasePair pp L := (mem_erasePair_of_ne heqD).mpr H2
      have hidxE : idxOf (erasePair pp L) r + 1 = k := by
        have := idxOf_erasePair H4 r
        rw [H3, if_pos hppr] at this
        omega
      have hrW : r ∈ insertSorted np (erasePair pp L) := mem_insertSorted.mpr (Or.inr hrE)
      have hidxW : idxOf (insertSorted np (erasePair pp L)) r = k - 1 := by
        rw [idxOf_insertSorted, if_neg (pairLt_asymm hrnp')]
        omega
      have hlenW : (insertSorted np (erasePair pp L)).length = L.length := by
        rw [insertSorted_length]
        have := erasePair_length H4
        omega
      obtain ⟨hpm, hpidx, hplt⟩ := iterSucc_spec hsW hrW (by
        rw [hidxW, hlenW]
        omega)
      rw [hidxW] at hpidx
      exact ⟨rfl, insertSorted_perm np _, hsW, hpm, by omega⟩
  · -- fall-through: impossible, the four conditions partition all orderings
    exfalso
    simp only [rollCaseA, rollCaseB, rollCaseC, rollCaseD] at hA hB hC hD
    rcases lt_or_le r.1 pp.1 with h1 | h1 <;> rcases le_or_lt r.1 np.1 with h2 | h2
    · exact hA ⟨h1, h2⟩
    · exact hC ⟨h1, h2⟩
    · exact hD ⟨h1, h2⟩
    · exact hB ⟨h1, h2⟩
/-! ### The reflected window -/

theorem reflWindow_length (src : List α) (hl p : ℕ) :
    (reflWindow src hl p).length = 2 * hl + 1 := by
  rw [reflWindow, List.length_map, List.length_range]

theorem reflWindow_getElem (src : List α) (hl p : ℕ) {j : ℕ} (hj : j < 2 * hl + 1) :
    (reflWindow src hl p).get ⟨j, by rw [reflWindow_length]; exact hj⟩ =
      src.getD (reflectIdx src.length ((p : ℤ) - hl + j)) default := by
  simp only [reflWindow, List.get_eq_getElem, List.getElem_map, List.getElem_range]

theorem range_snoc (n : ℕ) : List.range (n + 1) = List.range n ++ [n] := by
  rw [← Nat.succ_eq_add_one]
  exact List.range_succ n

/-- Rolling the window one position forward: drop the oldest entry, append the value at
reflected position `p + 1 + hl`. -/
theorem reflWindow_succ (src : List α) (hl p : ℕ) :
    reflWindow src hl (p + 1) =
      (reflWindow src hl p).tail ++
        [src.getD (reflectIdx src.length ((p : ℤ) + 1 + hl)) default] := by
  apply List.ext_getElem
  · rw [reflWindow_length, List.length_append, List.length_tail, reflWindow_length]
    simp
  intro j h1 h2
  have hj : j < 2 * hl + 1 := by rw [reflWindow_length] at h1; exact h1
  have htl : (reflWindow src hl p).tail.length = 2 * hl := by
    rw [List.length_tail, reflWindow_length]
    omega
  by_cases hlt : j < 2 * hl
  · rw [List.getElem_append_left (by rw [htl]; exact hlt)]
    have hj1 : j + 1 < (reflWindow src hl p).length := by rw [reflWindow_length]; omega
    rw [List.getElem_tail]
    show (reflWindow src hl (p + 1)).get ⟨j, h1⟩ = (reflWindow src hl p).get ⟨j + 1, hj1⟩
    rw [reflWindow_getElem src hl (p + 1) hj, reflWindow_getElem src hl p (by omega)]
    congr 2
    push_cast
    ring
  · have hj2 : j = 2 * hl := by omega
    subst hj2
    rw [List.getElem_append_right (by rw [htl])]
    simp only [htl]
    show (reflWindow src hl (p + 1)).get ⟨2 * hl, h1⟩ = _
    rw [reflWindow_getElem src hl (p + 1) hj]
    simp only [Nat.sub_self, List.getElem_singleton]
    congr 2
    push_cast
    ring

/-- The cursor's value read off the sorted window agrees with the brute-force sorted
view of the window's value multiset. -/
theorem rank_value_eq_sorted {L iters : List (α × ℕ)} {r : α × ℕ} {W : List α} {k : ℕ}
    (hs : L.Pairwise pairLt) (hperm : L ~ iters) (hfst : iters.map Prod.fst = W)
    (hmem : r ∈ L) (hidx : idxOf L r = k) :
    r.1 = (W.insertionSort (· ≤ ·)).getD k default := by
  have hk : k < L.length := hidx ▸ idxOf_lt_length hmem
  have hfstL : (L.map Prod.fst).Pairwise (· ≤ ·) := by
    refine hs.map Prod.fst ?_
    rintro a b (h | ⟨e, _⟩)
    · exact le_of_lt h
    · exact le_of_eq e
  have hpermW : L.map Prod.fst ~ W.insertionSort (· ≤ ·) :=
    (hfst ▸ hperm.map Prod.fst).trans (List.perm_insertionSort _ W).symm
  have heq : L.map Prod.fst = W.insertionSort (· ≤ ·) :=
    List.eq_of_perm_of_sorted hpermW hfstL (List.sorted_insertionSort _ W)
  have hkm : k < (L.map Prod.fst).length := by simpa using hk
  have hgd : (L.map Prod.fst).getD k default = (L.map Prod.fst).get ⟨k, hkm⟩ :=
    getD_eq_get default hkm
  rw [← heq, hgd]
  have : L.get ⟨k, hk⟩ = r := by
    have := get_idxOf hs hmem
    simp only [hidx] at this
    exact this
  simp [← this]

/-- Unfolding `rollStep` while the source is not exhausted. -/
theorem rollStep_cons {s : FilterState α} {v : α} {rest : List α}
    (h : s.srcRest = v :: rest) :
    rollStep s = rollStepCore s v rest s.windowReflectPos := by
  unfold rollStep
  rw [h]

/-- Unfolding `rollStep` once the source is exhausted: the right-boundary reflection. -/
theorem rollStep_nil {s : FilterState α} (h : s.srcRest = []) :
    rollStep s = rollStepCore s
      ((s.windowIters.tail.getD (s.windowReflectPos - 2) (default, 0)).1)
      [] (s.windowReflectPos - 2) := by
  unfold rollStep
  rw [h]

/-- Preservation of the master invariant by one call of `rollStepCore`, given that the
incoming value is the correctly reflected sample at position `p + 1 + hl` and that the
source suffix and the reflection counter are advanced accordingly. -/
theorem inv_core {src : List α} {hl rank_pos p : ℕ} {s : FilterState α}
    (hInv : Inv src hl rank_pos p s)
    {nextValue : α}
    (hnext : nextValue = src.getD (reflectIdx src.length ((p : ℤ) + 1 + hl)) default)
    {srcRest' : List α} (hsr : srcRest' = src.drop (p + 1 + hl + 1))
    {wrp' : ℕ} (hwrp : wrp' = min (2 * hl) (2 * (src.length - 1 - (p + 1)))) :
    Inv src hl rank_pos (p + 1) (rollStepCore s nextValue srcRest' wrp') := by
  obtain ⟨hfst, hmono, hle, hperm, hsort, hmem, hidx, hseen, hsrest, hwpos, hdest⟩ := hInv
  have hwilen : s.windowIters.length = 2 * hl + 1 := by
    have := congrArg List.length hfst
    rwa [List.length_map, reflWindow_length] at this
  obtain ⟨pp, iters1, hwi⟩ : ∃ pp iters1, s.windowIters = pp :: iters1 := by
    cases hwiC : s.windowIters with
    | nil => rw [hwiC] at hwilen; simp at hwilen
    | cons a t => exact ⟨a, t, rfl⟩
  have hppmemW : pp ∈ s.windowIters := by rw [hwi]; exact List.mem_cons_self pp iters1
  have hppmem : pp ∈ s.sortedWindow := hperm.mem_iff.mpr hppmemW
  have hmono1 : (pp :: iters1).Pairwise (fun a b => a.2 < b.2) := hwi ▸ hmono
  have H5 : ∀ q ∈ s.sortedWindow, q ≠ pp → pp.2 < q.2 := by
    intro q hq hne
    have hqW : q ∈ s.windowIters := hperm.mem_iff.mp hq
    rw [hwi] at hqW
    rcases List.mem_cons.mp hqW with e | hq1
    · exact absurd e hne
    · exact (List.pairwise_cons.mp hmono1).1 q hq1
  have H6 : ∀ q ∈ s.sortedWindow, q.2 < ((nextValue, s.valuesSeen + 1) : α × ℕ).2 := by
    intro q hq
    have := hle q (hperm.mem_iff.mp hq)
    simp only
    omega
  obtain ⟨hflag, hpermU, hsortU, hmemU, hidxU⟩ :=
    updateCursor_spec hsort hmem hidx hppmem H5 H6
  have hhead : s.windowIters.headD (default, 0) = pp := by rw [hwi]; rfl
  have htail : s.windowIters.tail = iters1 := by rw [hwi]; rfl
  have hstate : rollStepCore s nextValue srcRest' wrp' =
      { sortedWindow :=
          (updateCursor s.sortedWindow s.rankPoint pp (nextValue, s.valuesSeen + 1)).1
        windowIters := iters1 ++ [(nextValue, s.valuesSeen + 1)]
        rankPoint :=
          (updateCursor s.sortedWindow s.rankPoint pp (nextValue, s.valuesSeen + 1)).2.1
        valuesSeen := s.valuesSeen + 1
        srcRest := srcRest'
        windowReflectPos := wrp'
        dest := s.dest ++
          [(updateCursor s.sortedWindow s.rankPoint pp (nextValue, s.valuesSeen + 1)).2.1.1] }
      := by
    unfold rollStepCore
    rw [hhead, htail]
    dsimp only
    rw [if_pos hflag]
  -- the rolled deque, in sequence order, carries the next reflected window
  have hfst1 : iters1.map Prod.fst = (reflWindow src hl p).tail := by
    rw [hwi] at hfst
    have := congrArg List.tail hfst
    simpa using this
  have hfstNew : (iters1 ++ [((nextValue, s.valuesSeen + 1) : α × ℕ)]).map Prod.fst =
      reflWindow src hl (p + 1) := by
    rw [List.map_append, hfst1, reflWindow_succ, ← hnext]
    rfl
  have hpermNew :
      (updateCursor s.sortedWindow s.rankPoint pp (nextValue, s.valuesSeen + 1)).1 ~
        iters1 ++ [((nextValue, s.valuesSeen + 1) : α × ℕ)] := by
    have hep : erasePair pp s.sortedWindow ~ iters1 := by
      have h1 : s.sortedWindow ~ pp :: erasePair pp s.sortedWindow := erasePair_perm hppmem
      have h2 : s.sortedWindow ~ pp :: iters1 := hwi ▸ hperm
      exact (h1.symm.trans h2).cons_inv
    exact hpermU.trans ((hep.cons _).trans (List.perm_append_singleton _ iters1).symm)
  rw [hstate]
  refine ⟨hfstNew, ?_, ?_, hpermNew, hsortU, hmemU, hidxU, by simp only; omega, hsr, hwrp, ?_⟩
  · -- sequence indices stay strictly increasing
    rw [List.pairwise_append]
    refine ⟨(List.pairwise_cons.mp hmono1).2, List.pairwise_singleton _ _, ?_⟩
    intro a ha b hb
    rw [List.mem_singleton] at hb
    subst hb
    have := hle a (by rw [hwi]; exact List.mem_cons_of_mem pp ha)
    simp only
    omega
  · -- sequence indices stay bounded by values_seen
    intro q hq
    rcases List.mem_append.mp hq with hq1 | hq1
    · have := hle q (by rw [hwi]; exact List.mem_cons_of_mem pp hq1)
      simp only
      omega
    · rw [List.mem_singleton] at hq1
      subst hq1
      exact le_rfl
  · -- the freshly written output is the brute-force order statistic at p + 1
    rw [hdest, range_snoc (p + 1), List.map_append]
    simp only [List.map_cons, List.map_nil]
    rw [rank_value_eq_sorted hsortU hpermNew hfstNew hmemU hidxU]

/-! ### Evaluation of `reflectIdx` and `reflWindow` -/

theorem reflectIdx_of_neg {n : ℕ} {t : ℤ} (h0 : t < 0) : reflectIdx n t = (-t).toNat := by
  unfold reflectIdx
  rw [if_pos h0]

theorem reflectIdx_of_lt {n : ℕ} {t : ℤ} (h0 : 0 ≤ t) (hn : t < n) :
    reflectIdx n t = t.toNat := by
  unfold reflectIdx
  rw [if_neg (by omega), if_pos hn]

theorem reflectIdx_of_ge {n : ℕ} {t : ℤ} (hn : (n : ℤ) ≤ t) :
    reflectIdx n t = (2 * ((n : ℤ) - 1) - t).toNat := by
  unfold reflectIdx
  rw [if_neg (by omega), if_neg (by omega)]

theorem reflWindow_get (src : List α) (hl p : ℕ) {j : ℕ}
    (hj : j < (reflWindow src hl p).length) :
    (reflWindow src hl p).get ⟨j, hj⟩ =
      src.getD (reflectIdx src.length ((p : ℤ) - (hl : ℤ) + (j : ℤ))) default := by
  simp only [reflWindow, List.get_eq_getElem, List.getElem_map, List.getElem_range]

/-! ### Building the initial sorted window by repeated ordered insertion -/

theorem foldl_insertSorted_perm (l acc : List (α × ℕ)) :
    l.foldl (fun a q => insertSorted q a) acc ~ acc ++ l := by
  induction l generalizing acc with
  | nil => simp
  | cons q t ih =>
      have h1 : (q :: t).foldl (fun a q => insertSorted q a) acc =
          t.foldl (fun a q => insertSorted q a) (insertSorted q acc) := rfl
      rw [h1]
      refine (ih (insertSorted q acc)).trans ?_
      have h2 : insertSorted q acc ++ t ~ (q :: acc) ++ t :=
        (insertSorted_perm q acc).append_right t
      refine h2.trans ?_
      exact List.perm_middle.symm

theorem foldl_insertSorted_sorted (l : List (α × ℕ)) :
    ∀ acc : List (α × ℕ), acc.Pairwise pairLt → (acc ++ l).Nodup →
      (l.foldl (fun a q => insertSorted q a) acc).Pairwise pairLt := by
  induction l with
  | nil => intro acc hs _; simpa using hs
  | cons q t ih =>
      intro acc hs hnd
      have hqacc : q ∉ acc := by
        intro hq
        have : ¬ (acc ++ q :: t).Nodup := by
          intro hnd'
          have := List.disjoint_of_nodup_append hnd'
          exact this hq (List.mem_cons_self q t)
        exact this hnd
      have h1 : (q :: t).foldl (fun a q => insertSorted q a) acc =
          t.foldl (fun a q => insertSorted q a) (insertSorted q acc) := rfl
      rw [h1]
      refine ih (insertSorted q acc) (insertSorted_sorted hs hqacc) ?_
      have hperm : insertSorted q acc ++ t ~ acc ++ q :: t := by
        refine ((insertSorted_perm q acc).append_right t).trans ?_
        exact List.perm_middle.symm
      exact (hperm.nodup_iff).mpr hnd

/-- Reading a handle's value through the deque agrees with reading the value deque. -/
theorem getD_map_fst (l : List (α × ℕ)) (i : ℕ) (d : α × ℕ) (h : i < l.length) :
    (l.map Prod.fst).getD i d.1 = (l.getD i d).1 := by
  rw [getD_eq_get d h, getD_eq_get d.1 (by rw [List.length_map]; exact h)]
  simp

theorem getD_tail {β : Type*} (l : List β) (i : ℕ) (d : β) (h : i + 1 < l.length) :
    l.tail.getD i d = l.getD (i + 1) d := by
  have h' : i < l.tail.length := by rw [List.length_tail]; omega
  rw [getD_eq_get d h', getD_eq_get d h]
  simp [List.getElem_tail]

/-- Preservation of the master invariant by one iteration of the roll-forward loop. -/
theorem inv_step {src : List α} {hl rank_pos p : ℕ} {s : FilterState α}
    (hlen : hl + 1 ≤ src.length) (hp : p + 1 < src.length)
    (hInv : Inv src hl rank_pos p s) :
    Inv src hl rank_pos (p + 1) (rollStep s) := by
  by_cases hsrc : p + hl + 1 < src.length
  · -- a genuine source sample arrives
    have hdrop : s.srcRest = src.get ⟨p + hl + 1, hsrc⟩ :: src.drop (p + hl + 2) := by
      rw [hInv.src_rest, List.drop_eq_getElem_cons hsrc]
      rfl
    rw [rollStep_cons hdrop]
    refine inv_core hInv ?_ ?_ ?_
    · have hidx : reflectIdx src.length ((p : ℤ) + 1 + hl) = p + hl + 1 := by
        rw [reflectIdx_of_lt (by omega) (by omega)]
        omega
      rw [hidx, getD_eq_get default hsrc]
    · rw [show p + 1 + hl + 1 = p + hl + 2 by omega]
    · rw [hInv.reflect_pos]
      omega
  · -- the source is exhausted: reflect at the right boundary
    have hnil : s.srcRest = [] := by
      rw [hInv.src_rest]
      exact List.drop_eq_nil_of_le (by omega)
    have h2 : s.windowReflectPos = 2 * (src.length - 1 - p) := by
      rw [hInv.reflect_pos]
      omega
    have hwilen : s.windowIters.length = 2 * hl + 1 := by
      have := congrArg List.length hInv.iters_fst
      rwa [List.length_map, reflWindow_length] at this
    have hi : s.windowReflectPos - 2 < s.windowIters.tail.length := by
      rw [List.length_tail, hwilen]
      omega
    rw [rollStep_nil hnil]
    refine inv_core hInv ?_ (List.drop_eq_nil_of_le (by omega)).symm ?_
    · -- the handle value read back from the deque is the reflected source sample
      have hi' : s.windowReflectPos - 2 + 1 < (reflWindow src hl p).length := by
        rw [reflWindow_length]
        rw [List.length_tail, hwilen] at hi
        omega
      have hfstTail : s.windowIters.tail.map Prod.fst = (reflWindow src hl p).tail := by
        rw [List.map_tail, hInv.iters_fst]
      have hval : (s.windowIters.tail.getD (s.windowReflectPos - 2) (default, 0)).1 =
          (reflWindow src hl p).getD (s.windowReflectPos - 2 + 1) default := by
        rw [← getD_map_fst s.windowIters.tail (s.windowReflectPos - 2) (default, 0) hi]
        rw [hfstTail]
        exact getD_tail (reflWindow src hl p) (s.windowReflectPos - 2) default hi'
      rw [hval, getD_eq_get default hi', reflWindow_get src hl p hi']
      have heq : reflectIdx src.length
          ((p : ℤ) - (hl : ℤ) + ((s.windowReflectPos - 2 + 1 : ℕ) : ℤ)) =
          reflectIdx src.length ((p : ℤ) + 1 + hl) := by
        rw [h2]
        have c1 : (0 : ℤ) ≤ (p : ℤ) - (hl : ℤ) + ((2 * (src.length - 1 - p) - 2 + 1 : ℕ) : ℤ)
            := by omega
        have c2 : (p : ℤ) - (hl : ℤ) + ((2 * (src.length - 1 - p) - 2 + 1 : ℕ) : ℤ) <
            (src.length : ℤ) := by omega
        have c4 : ((src.length : ℕ) : ℤ) ≤ (p : ℤ) + 1 + hl := by omega
        rw [reflectIdx_of_lt c1 c2, reflectIdx_of_ge c4]
        omega
      rw [heq]
    · rw [h2]
      omega

/-- The sequence-ordered values inserted by the initialization phase form exactly the
left-reflected window centered at position `0`. -/
theorem init_seq_vals {src : List α} {hl : ℕ} (hlen : hl + 1 ≤ src.length) :
    ((src.take (hl + 1)).reverse.take hl ++ ((src.take (hl + 1)).reverse).reverse)
      = reflWindow src hl 0 := by
  have hlenT : (src.take (hl + 1)).length = hl + 1 := by rw [List.length_take]; omega
  have hlenR : ((src.take (hl + 1)).reverse).length = hl + 1 := by
    rw [List.length_reverse]
    exact hlenT
  have hlenTake : ((src.take (hl + 1)).reverse.take hl).length = hl := by
    rw [List.length_take, hlenR]
    omega
  apply List.ext_getElem
  · rw [List.length_append, hlenTake, List.length_reverse, hlenR, reflWindow_length]
    omega
  intro j h1 h2
  have hj : j < 2 * hl + 1 := by rw [reflWindow_length] at h2; exact h2
  have hrw : (reflWindow src hl 0).get ⟨j, h2⟩ =
      src.getD (reflectIdx src.length ((0 : ℤ) - (hl : ℤ) + (j : ℤ))) default :=
    reflWindow_get src hl 0 h2
  rw [List.get_eq_getElem] at hrw
  rw [hrw]
  by_cases hcase : j < hl
  · rw [List.getElem_append_left (by rw [hlenTake]; exact hcase)]
    rw [List.getElem_take, List.getElem_reverse, List.getElem_take]
    rw [reflectIdx_of_neg (by omega)]
    rw [List.getD_eq_getElem src default (by omega)]
    congr 1
    rw [hlenT]
    omega
  · rw [List.getElem_append_right (by rw [hlenTake]; omega)]
    rw [List.getElem_reverse, List.getElem_reverse, List.getElem_take]
    rw [reflectIdx_of_lt (by omega) (by omega)]
    rw [List.getD_eq_getElem src default (by omega)]
    congr 1
    rw [hlenTake, hlenR, hlenT]
    omega

/-- The master invariant holds for the state produced by the initialization phase. -/
theorem inv_init {src : List α} {hl rank_pos : ℕ}
    (hlen : hl + 1 ≤ src.length) (hrk : rank_pos ≤ 2 * hl) :
    Inv src hl rank_pos 0 (initState src hl rank_pos) := by
  have hlenT : (src.take (hl + 1)).length = hl + 1 := by rw [List.length_take]; omega
  have hlenR : ((src.take (hl + 1)).reverse).length = hl + 1 := by
    rw [List.length_reverse]
    exact hlenT
  have hseqlen :
      ((src.take (hl + 1)).reverse.take hl ++ ((src.take (hl + 1)).reverse).reverse).length
        = 2 * hl + 1 := by
    rw [List.length_append, List.length_take, hlenR, List.length_reverse, hlenR]
    omega
  set V := (src.take (hl + 1)).reverse.take hl ++ ((src.take (hl + 1)).reverse).reverse
    with hV
  set P := V.zip (List.range (2 * hl + 1)) with hP
  set S := P.foldl (fun acc q => insertSorted q acc) [] with hS
  set R := S.getD rank_pos (default, 0) with hR
  have hstate : initState src hl rank_pos =
      { sortedWindow := S, windowIters := P, rankPoint := R, valuesSeen := 2 * hl + 1,
        srcRest := src.drop (hl + 1), windowReflectPos := 2 * hl, dest := [R.1] } := rfl
  have hfst : P.map Prod.fst = V :=
    List.map_fst_zip _ _ (by rw [hseqlen, List.length_range])
  have hsnd : P.map Prod.snd = List.range (2 * hl + 1) :=
    List.map_snd_zip _ _ (by rw [hseqlen, List.length_range])
  have hplen : P.length = 2 * hl + 1 := by
    rw [hP, List.length_zip, hseqlen, List.length_range]
    omega
  have hmonoP : P.Pairwise (fun a b => a.2 < b.2) := by
    rw [← List.pairwise_map (f := Prod.snd), hsnd]
    exact List.pairwise_lt_range _
  have hnodup : P.Nodup := by
    refine hmonoP.imp ?_
    intro a b hab e
    rw [e] at hab
    exact lt_irrefl _ hab
  have hsorted : S.Pairwise pairLt :=
    foldl_insertSorted_sorted _ [] List.Pairwise.nil (by simpa using hnodup)
  have hperm : S ~ P := by
    rw [hS]
    simpa using foldl_insertSorted_perm P []
  have hslen : S.length = 2 * hl + 1 := by rw [hperm.length_eq, hplen]
  have hrklt : rank_pos < S.length := by rw [hslen]; omega
  have hmem : R ∈ S := by
    rw [hR, getD_eq_get (default, 0) hrklt]
    exact List.get_mem _ _ hrklt
  have hidx : idxOf S R = rank_pos := by
    rw [hR, getD_eq_get (default, 0) hrklt]
    exact idxOf_get hsorted hrklt
  have hVrefl : V = reflWindow src hl 0 := init_seq_vals hlen
  rw [hstate]
  refine ⟨?_, hmonoP, ?_, hperm, hsorted, hmem, hidx, ?_, ?_, ?_, ?_⟩
  · show P.map Prod.fst = reflWindow src hl 0
    rw [hfst]
    exact hVrefl
  · show ∀ q ∈ P, q.2 ≤ 2 * hl + 1
    intro q hq
    have h1 : q.2 ∈ List.range (2 * hl + 1) := by
      rw [← hsnd]
      exact List.mem_map_of_mem Prod.snd hq
    have := List.mem_range.mp h1
    omega
  · show (2 * hl + 1 : ℕ) = 2 * hl + 1 + 0
    omega
  · show src.drop (hl + 1) = src.drop (0 + hl + 1)
    norm_num
  · show (2 * hl : ℕ) = min (2 * hl) (2 * (src.length - 1 - 0))
    omega
  · show [R.1] = (List.range (0 + 1)).map
      (fun q => ((reflWindow src hl q).insertionSort (· ≤ ·)).getD rank_pos default)
    have hr : (List.range (0 + 1)) = [0] := rfl
    rw [hr, List.map_cons, List.map_nil]
    rw [rank_value_eq_sorted hsorted hperm (hfst.trans hVrefl) hmem hidx]

/-- The master invariant holds after every iteration count up to `|source| - 1`. -/
theorem inv_stateAt {src : List α} {hl rank_pos : ℕ}
    (hlen : hl + 1 ≤ src.length) (hrk : rank_pos ≤ 2 * hl) :
    ∀ p, p + 1 ≤ src.length → Inv src hl rank_pos p (stateAt src hl rank_pos p) := by
  intro p
  induction p with
  | zero =>
      intro _
      exact inv_init hlen hrk
  | succ p ih =>
      intro hp1
      have hInv := ih (by omega)
      have hstep := inv_step hlen (by omega) hInv
      rw [stateAt, Function.iterate_succ_apply']
      exact hstep

/-- One unrolling of the loop: with fuel to spare and iterations remaining, the loop
steps from state `k` to state `k + 1`; at `k = |source| - 1` the guard is false and the
loop exits. -/
theorem rollLoop_runs {src : List α} {hl rank_pos : ℕ}
    (hlen : hl + 1 ≤ src.length) (hrk : rank_pos ≤ 2 * hl) :
    ∀ fuel k, k + 1 ≤ src.length → src.length ≤ k + 1 + fuel →
      rollLoop fuel (stateAt src hl rank_pos k) =
        stateAt src hl rank_pos (src.length - 1) := by
  intro fuel
  induction fuel with
  | zero =>
      intro k hk1 hk2
      have hk : k = src.length - 1 := by omega
      rw [hk]
      rfl
  | succ fuel ih =>
      intro k hk1 hk2
      have hInv := inv_stateAt hlen hrk k hk1
      by_cases hk : k + 1 < src.length
      · have hguard : (stateAt src hl rank_pos k).srcRest ≠ [] ∨
            0 < (stateAt src hl rank_pos k).windowReflectPos := by
          by_cases hs : k + hl + 1 < src.length
          · left
            rw [hInv.src_rest]
            intro he
            have := congrArg List.length he
            rw [List.length_drop] at this
            simp at this
            omega
          · right
            rw [hInv.reflect_pos]
            omega
        rw [rollLoop, if_pos hguard]
        have hstep : rollStep (stateAt src hl rank_pos k) =
            stateAt src hl rank_pos (k + 1) := by
          rw [stateAt, stateAt, Function.iterate_succ_apply']
        rw [hstep]
        exact ih (k + 1) (by omega) (by omega)
      · have hk' : k = src.length - 1 := by omega
        have hg1 : (stateAt src hl rank_pos k).srcRest = [] := by
          rw [hInv.src_rest]
          exact List.drop_eq_nil_of_le (by omega)
        have hg2 : (stateAt src hl rank_pos k).windowReflectPos = 0 := by
          rw [hInv.reflect_pos]
          omega
        rw [rollLoop, if_neg (by rw [hg1, hg2]; simp), hk']

/-- The engine computes exactly the brute-force rank filter, for every ordinal
`rank_pos` within the window. -/
theorem runFilter_eq_brute {src : List α} {hl rank_pos : ℕ}
    (hlen : hl + 1 ≤ src.length) (hrk : rank_pos ≤ 2 * hl) :
    runFilter src hl rank_pos = bruteRankFilter src hl rank_pos := by
  unfold runFilter
  have h0 : rollLoop (src.length + 2 * hl) (initState src hl rank_pos) =
      stateAt src hl rank_pos (src.length - 1) :=
    rollLoop_runs hlen hrk (src.length + 2 * hl) 0 (by omega) (by omega)
  rw [h0]
  have hInv := inv_stateAt hlen hrk (src.length - 1) (by omega)
  rw [hInv.dest_eq]
  unfold bruteRankFilter
  rw [show src.length - 1 + 1 = src.length from by omega]

/-- The computed ordinal stays within the window for every admissible rank. -/
theorem rankPosOf_le {rank : ℚ} (hl : ℕ) (h0 : 0 ≤ rank) (h1 : rank ≤ 1) :
    rankPosOf rank hl ≤ 2 * hl := by
  unfold rankPosOf boostRound
  rw [if_neg (by simp only [not_lt]; exact mul_nonneg h0 (by positivity))]
  have hle : rank * (2 * hl) ≤ 2 * hl :=
    mul_le_of_le_one_left (by positivity) h1
  have hfl : ⌊rank * (2 * hl) + 1 / 2⌋ < 2 * hl + 1 := by
    rw [Int.floor_lt]
    push_cast
    linarith
  omega

/-! ### Symmetry of the boundary reflection -/

theorem reflectIdx_lt {n : ℕ} {t : ℤ} (hn : 1 ≤ n) (hlow : -((n : ℤ) - 1) ≤ t)
    (hhigh : t ≤ 2 * ((n : ℤ) - 1)) : reflectIdx n t < n := by
  by_cases ht : t < 0
  · rw [reflectIdx_of_neg ht]
    omega
  by_cases ht2 : t < n
  · rw [reflectIdx_of_lt (by omega) ht2]
    omega
  · rw [reflectIdx_of_ge (by omega)]
    omega

/-- Mirroring the reflected index about the segment midpoint. -/
theorem reflectIdx_mirror {n : ℕ} {t : ℤ} (hn : 1 ≤ n) (hlow : -((n : ℤ) - 1) ≤ t)
    (hhigh : t ≤ 2 * ((n : ℤ) - 1)) :
    reflectIdx n (((n : ℤ) - 1) - t) = n - 1 - reflectIdx n t := by
  by_cases ht : t < 0
  · rw [reflectIdx_of_ge (by omega), reflectIdx_of_neg ht]
    omega
  by_cases ht2 : t < n
  · rw [reflectIdx_of_lt (by omega) (by omega), reflectIdx_of_lt (by omega) ht2]
    omega
  · rw [reflectIdx_of_neg (by omega), reflectIdx_of_ge (by omega)]
    omega

theorem reverse_getD {β : Type*} [Inhabited β] (l : List β) (i : ℕ) (h : i < l.length) :
    l.reverse.getD i default = l.getD (l.length - 1 - i) default := by
  rw [getD_eq_get default (by rw [List.length_reverse]; exact h),
    getD_eq_get default (by omega : l.length - 1 - i < l.length)]
  simp [List.getElem_reverse]

/-- The reflected window of the reversed sequence at position `p` is the reverse of the
reflected window of the original sequence at the mirrored position. -/
theorem reflWindow_reverse {src : List α} {hl p : ℕ} (hlen : hl + 1 ≤ src.length)
    (hp : p < src.length) :
    reflWindow src.reverse hl p = (reflWindow src hl (src.length - 1 - p)).reverse := by
  apply List.ext_getElem
  · rw [reflWindow_length, List.length_reverse, reflWindow_length]
  intro j h1 h2
  have hj : j < 2 * hl + 1 := by rw [reflWindow_length] at h1; exact h1
  have hrw1 := reflWindow_get src.reverse hl p h1
  rw [List.get_eq_getElem] at hrw1
  rw [hrw1]
  rw [List.getElem_reverse]
  have hb : (reflWindow src hl (src.length - 1 - p)).length - 1 - j <
      (reflWindow src hl (src.length - 1 - p)).length := by
    rw [reflWindow_length]
    omega
  have hrw2 := reflWindow_get src hl (src.length - 1 - p) hb
  rw [List.get_eq_getElem] at hrw2
  rw [hrw2]
  have harg : reflectIdx src.length
      (((src.length - 1 - p : ℕ) : ℤ) - (hl : ℤ) +
        (((reflWindow src hl (src.length - 1 - p)).length - 1 - j : ℕ) : ℤ)) =
      src.length - 1 - reflectIdx src.length ((p : ℤ) - (hl : ℤ) + (j : ℤ)) := by
    rw [show (((src.length - 1 - p : ℕ) : ℤ) - (hl : ℤ) +
        (((reflWindow src hl (src.length - 1 - p)).length - 1 - j : ℕ) : ℤ)) =
        ((src.length : ℤ) - 1) - ((p : ℤ) - (hl : ℤ) + (j : ℤ)) from by
      rw [reflWindow_length]
      omega]
    exact reflectIdx_mirror (by omega) (by omega) (by omega)
  rw [harg]
  rw [show (src.reverse : List α).getD
      (reflectIdx src.reverse.length ((p : ℤ) - (hl : ℤ) + (j : ℤ))) default =
      src.reverse.getD (reflectIdx src.length ((p : ℤ) - (hl : ℤ) + (j : ℤ))) default from by
    rw [List.length_reverse]]
  rw [reverse_getD src _ (reflectIdx_lt (by omega) (by omega) (by omega))]

/-- The brute-force filter of the reversed sequence, reversed, is the brute-force filter
of the original sequence. -/
theorem brute_reverse {src : List α} {hl k : ℕ} (hlen : hl + 1 ≤ src.length) :
    (bruteRankFilter src.reverse hl k).reverse = bruteRankFilter src hl k := by
  apply List.ext_getElem
  · simp [bruteRankFilter]
  intro p h1 h2
  have hp : p < src.length := by
    simpa [bruteRankFilter] using h2
  rw [List.getElem_reverse]
  simp only [bruteRankFilter, List.getElem_map, List.getElem_range, List.length_map,
    List.length_range, List.length_reverse]
  rw [reflWindow_reverse hlen (by omega)]
  rw [show src.length - 1 - (src.length - 1 - p) = p from by omega]
  congr 1
  refine List.eq_of_perm_of_sorted ?_ (List.sorted_insertionSort _ _)
    (List.sorted_insertionSort _ _)
  exact ((List.perm_insertionSort _ _).trans ((reflWindow src hl p).reverse_perm)).trans
    (List.perm_insertionSort _ _).symm

theorem take_reverse_take {src : List α} {hl : ℕ} (hlen : hl + 1 ≤ src.length) :
    (src.take (hl + 1)).reverse.take hl = ((src.drop 1).take hl).reverse := by
  apply List.ext_getElem
  · simp only [List.length_take, List.length_reverse, List.length_drop]
    omega
  intro j h1 h2
  simp only [List.getElem_take, List.getElem_reverse, List.getElem_drop, List.length_take,
    List.length_reverse, List.length_drop]
  congr 1
  simp only [List.length_take, List.length_reverse, List.length_drop] at h1 h2
  omega

/-! ### The claims -/

/-- C1: for every source sequence, every `half_length` with `half_length + 1 ≤ |source|`
and every rank in `[0, 1]`, the destination written by `lineRankOrderFilter1D` equals the
brute-force reference, and in particular the value at each output position `p` is the
`rank_pos`-th smallest (with `rank_pos = round(rank * 2 * half_length)` under the code's
rounding rule) of the boundary-reflected window of `2 * half_length + 1` values centered
at `p`, obtained by independently sorting that window. -/
theorem lineRankOrderFilter1D_matches_bruteForce {src : List α} (hl : ℕ) (rank : ℚ)
    (hlen : hl + 1 ≤ src.length) (h0 : 0 ≤ rank) (h1 : rank ≤ 1) :
    lineRankOrderFilter1D src hl rank = bruteRankFilter src hl (rankPosOf rank hl) ∧
    ∀ p, p < src.length →
      (lineRankOrderFilter1D src hl rank).getD p default =
        ((reflWindow src hl p).insertionSort (· ≤ ·)).getD (rankPosOf rank hl) default := by
  have hrk := rankPosOf_le hl h0 h1
  have hmain : lineRankOrderFilter1D src hl rank =
      bruteRankFilter src hl (rankPosOf rank hl) := runFilter_eq_brute hlen hrk
  refine ⟨hmain, ?_⟩
  intro p hp
  rw [hmain]
  unfold bruteRankFilter
  rw [List.getD_eq_getElem _ default (by rw [List.length_map, List.length_range]; exact hp)]
  simp only [List.getElem_map, List.getElem_range]

theorem lineRankOrderFilter1D_matches_bruteForce_witness :
    lineRankOrderFilter1D ([5, 3, 8, 1, 9, 2, 7] : List ℤ) 1 1 =
      bruteRankFilter ([5, 3, 8, 1, 9, 2, 7] : List ℤ) 1 (rankPosOf 1 1) :=
  (lineRankOrderFilter1D_matches_bruteForce 1 1 (by decide) zero_le_one (le_refl 1)).1

/-- C2: for every valid input the filter writes exactly `|source|` values, one from the
initialization phase and exactly one more per loop iteration (after `p` iterations the
destination holds `p + 1` values), and every single `rollStep` appends exactly one
value to the destination. -/
theorem lineRankOrderFilter1D_output_length {src : List α} (hl : ℕ) (rank : ℚ)
    (hlen : hl + 1 ≤ src.length) (h0 : 0 ≤ rank) (h1 : rank ≤ 1) :
    (lineRankOrderFilter1D src hl rank).length = src.length ∧
    (initState src hl (rankPosOf rank hl) : FilterState α).dest.length = 1 ∧
    (∀ s : FilterState α, (rollStep s).dest.length = s.dest.length + 1) ∧
    (∀ p, p + 1 ≤ src.length →
      (stateAt src hl (rankPosOf rank hl) p).dest.length = p + 1) := by
  have hrk := rankPosOf_le hl h0 h1
  refine ⟨?_, rfl, ?_, ?_⟩
  · unfold lineRankOrderFilter1D
    rw [runFilter_eq_brute hlen hrk]
    unfold bruteRankFilter
    rw [List.length_map, List.length_range]
  · intro s
    cases hsr : s.srcRest with
    | nil =>
        rw [rollStep_nil hsr]
        unfold rollStepCore
        simp
    | cons v rest =>
        rw [rollStep_cons hsr]
        unfold rollStepCore
        simp
  · intro p hp
    have hInv := inv_stateAt hlen hrk p hp
    rw [hInv.dest_eq, List.length_map, List.length_range]

theorem lineRankOrderFilter1D_output_length_witness :
    (lineRankOrderFilter1D ([3, 1, 4] : List ℤ) 1 1).length = ([3, 1, 4] : List ℤ).length :=
  (lineRankOrderFilter1D_output_length 1 1 (by decide) zero_le_one (le_refl 1)).1

/-- C3: for every valid input the rank-cursor invariant holds after initialization and
after every roll-forward iteration: the cursor's sample is stored in the ordered window
and exactly `rank_pos = round(rank * 2 * half_length)` stored samples compare strictly
below it in the (value, sequence index) pair order, i.e. the cursor sits at ordinal
`rank_pos` of the ordered window. -/
theorem rankCursor_ordinal_invariant {src : List α} (hl : ℕ) (rank : ℚ)
    (hlen : hl + 1 ≤ src.length) (h0 : 0 ≤ rank) (h1 : rank ≤ 1) :
    ∀ p, p + 1 ≤ src.length →
      (stateAt src hl (rankPosOf rank hl) p).rankPoint ∈
        (stateAt src hl (rankPosOf rank hl) p).sortedWindow ∧
      idxOf (stateAt src hl (rankPosOf rank hl) p).sortedWindow
        (stateAt src hl (rankPosOf rank hl) p).rankPoint = rankPosOf rank hl := by
  intro p hp
  have hInv := inv_stateAt hlen (rankPosOf_le hl h0 h1) p hp
  exact ⟨hInv.rank_mem, hInv.rank_idx⟩

theorem rankCursor_ordinal_invariant_witness :
    (stateAt ([3, 1, 4] : List ℤ) 1 (rankPosOf 1 1) 1).rankPoint ∈
      (stateAt ([3, 1, 4] : List ℤ) 1 (rankPosOf 1 1) 1).sortedWindow ∧
    idxOf (stateAt ([3, 1, 4] : List ℤ) 1 (rankPosOf 1 1) 1).sortedWindow
      (stateAt ([3, 1, 4] : List ℤ) 1 (rankPosOf 1 1) 1).rankPoint = rankPosOf 1 1 :=
  rankCursor_ordinal_invariant 1 1 (by decide) zero_le_one (le_refl 1) 1 (by decide)

/-- C4: the four roll-forward branch conditions are mutually exclusive and exhaustive
on every triple (rank value, departing value, arriving value), so the implicit
fall-through branch of the update can never be taken. -/
theorem rollCase_partition (rv pv nv : α) :
    (rollCaseA rv pv nv ∨ rollCaseB rv pv nv ∨ rollCaseC rv pv nv ∨ rollCaseD rv pv nv) ∧
    ¬ (rollCaseA rv pv nv ∧ rollCaseB rv pv nv) ∧
    ¬ (rollCaseA rv pv nv ∧ rollCaseC rv pv nv) ∧
    ¬ (rollCaseA rv pv nv ∧ rollCaseD rv pv nv) ∧
    ¬ (rollCaseB rv pv nv ∧ rollCaseC rv pv nv) ∧
    ¬ (rollCaseB rv pv nv ∧ rollCaseD rv pv nv) ∧
    ¬ (rollCaseC rv pv nv ∧ rollCaseD rv pv nv) := by
  simp only [rollCaseA, rollCaseB, rollCaseC, rollCaseD, ge_iff_le, gt_iff_lt]
  rcases lt_or_le rv pv with hp | hp <;> rcases le_or_lt rv nv with hn | hn
  · have h1 : ¬ pv ≤ rv := not_le.mpr hp
    have h2 : ¬ nv < rv := not_lt.mpr hn
    tauto
  · have h1 : ¬ pv ≤ rv := not_le.mpr hp
    have h2 : ¬ rv ≤ nv := not_le.mpr hn
    tauto
  · have h1 : ¬ rv < pv := not_lt.mpr hp
    have h2 : ¬ nv < rv := not_lt.mpr hn
    tauto
  · have h1 : ¬ rv < pv := not_lt.mpr hp
    have h2 : ¬ rv ≤ nv := not_le.mpr hn
    tauto

/-- C5: the initialization phase builds the window, in insertion (sequence) order, as
the first `half_length` source elements reversed over indices `[1..half_length]`
followed by the `half_length + 1` elements at indices `0..half_length` in forward
order, each entry carrying a distinct, strictly increasing sequence index
(`0, 1, ..., 2 * half_length`), and the first emitted output is the value at ordinal
`rank_pos` of the sorted initial window. -/
theorem initState_window_structure {src : List α} {hl rank_pos : ℕ}
    (hlen : hl + 1 ≤ src.length) (hrk : rank_pos ≤ 2 * hl) :
    (initState src hl rank_pos : FilterState α).windowIters.map Prod.fst =
      ((src.drop 1).take hl).reverse ++ src.take (hl + 1) ∧
    (initState src hl rank_pos : FilterState α).windowIters.map Prod.snd =
      List.range (2 * hl + 1) ∧
    (initState src hl rank_pos : FilterState α).dest =
      [((((initState src hl rank_pos : FilterState α).windowIters.map
        Prod.fst).insertionSort (· ≤ ·)).getD rank_pos default)] := by
  have hlenT : (src.take (hl + 1)).length = hl + 1 := by rw [List.length_take]; omega
  have hseqlen :
      ((src.take (hl + 1)).reverse.take hl ++ ((src.take (hl + 1)).reverse).reverse).length
        = 2 * hl + 1 := by
    simp only [List.length_append, List.length_take, List.length_reverse, hlenT]
    omega
  have hfst : (initState src hl rank_pos : FilterState α).windowIters.map Prod.fst =
      (src.take (hl + 1)).reverse.take hl ++ ((src.take (hl + 1)).reverse).reverse :=
    List.map_fst_zip _ _ (by rw [hseqlen, List.length_range])
  refine ⟨?_, ?_, ?_⟩
  · rw [hfst, take_reverse_take hlen, List.reverse_reverse]
  · exact List.map_snd_zip _ _ (by rw [hseqlen, List.length_range])
  · have hInv := inv_init hlen hrk
    have hdest := hInv.dest_eq
    have hfst0 := hInv.iters_fst
    rw [hdest, hfst0]
    rfl

theorem initState_window_structure_witness :
    (initState ([5, 3, 8] : List ℤ) 1 1).windowIters.map Prod.fst =
      ((([5, 3, 8] : List ℤ).drop 1).take 1).reverse ++ ([5, 3, 8] : List ℤ).take 2 :=
  (initState_window_structure (by decide) (by decide)).1

/-- C6: the guarded entry point reports a failure exactly when one of the three
precondition violations holds — destination too small, window too large for the source
under reflection, or rank outside `[0, 1]` — each checked eagerly in source order
before any state is touched; when all checks pass it runs the (total) algorithm and
returns its output. -/
theorem checked_precondition_report (src : List α) (destLen hl : ℕ) (rank : ℚ) :
    ((∃ e, lineRankOrderFilter1DChecked src destLen hl rank = Except.error e) ↔
      (destLen < src.length ∨ src.length < hl + 1 ∨ rank < 0 ∨ 1 < rank)) ∧
    (¬ src.length ≤ destLen →
      lineRankOrderFilter1DChecked src destLen hl rank =
        Except.error RankFilterError.DestinationTooSmall) ∧
    (src.length ≤ destLen → ¬ hl + 1 ≤ src.length →
      lineRankOrderFilter1DChecked src destLen hl rank =
        Except.error RankFilterError.WindowTooLarge) ∧
    (src.length ≤ destLen → hl + 1 ≤ src.length → ¬ (0 ≤ rank ∧ rank ≤ 1) →
      lineRankOrderFilter1DChecked src destLen hl rank =
        Except.error RankFilterError.RankOutOfRange) ∧
    (src.length ≤ destLen → hl + 1 ≤ src.length → 0 ≤ rank → rank ≤ 1 →
      lineRankOrderFilter1DChecked src destLen hl rank =
        Except.ok (lineRankOrderFilter1D src hl rank)) := by
  unfold lineRankOrderFilter1DChecked
  by_cases c1 : src.length ≤ destLen
  · rw [if_neg (by simpa using c1)]
    by_cases c2 : hl + 1 ≤ src.length
    · rw [if_neg (by simpa using c2)]
      by_cases c3 : 0 ≤ rank ∧ rank ≤ 1
      · rw [if_neg (by simpa using c3)]
        refine ⟨?_, fun h => absurd c1 h, fun _ h => absurd c2 h,
          fun _ _ h => absurd c3 h, fun _ _ _ _ => rfl⟩
        constructor
        · rintro ⟨e, he⟩
          exact absurd he (by simp)
        · rintro (h | h | h | h)
          · omega
          · omega
          · exact absurd c3.1 (not_le.mpr h)
          · exact absurd c3.2 (not_le.mpr h)
      · rw [if_pos c3]
        refine ⟨?_, fun h => absurd c1 h, fun _ h => absurd c2 h,
          fun _ _ _ => rfl, fun _ _ hr0 hr1 => absurd ⟨hr0, hr1⟩ c3⟩
        constructor
        · intro _
          rcases not_and_or.mp c3 with h | h
          · exact Or.inr (Or.inr (Or.inl (not_le.mp h)))
          · exact Or.inr (Or.inr (Or.inr (not_le.mp h)))
        · intro _
          exact ⟨RankFilterError.RankOutOfRange, rfl⟩
    · rw [if_pos c2]
      refine ⟨?_, fun h => absurd c1 h, fun _ _ => rfl,
        fun _ h _ => absurd h c2, fun _ h _ _ => absurd h c2⟩
      constructor
      · intro _
        exact Or.inr (Or.inl (by omega))
      · intro _
        exact ⟨RankFilterError.WindowTooLarge, rfl⟩
  · rw [if_pos c1]
    refine ⟨?_, fun _ => rfl, fun h _ => absurd h c1,
      fun h _ _ => absurd h c1, fun h _ _ _ => absurd h c1⟩
    constructor
    · intro _
      exact Or.inl (by omega)
    · intro _
      exact ⟨RankFilterError.DestinationTooSmall, rfl⟩

theorem checked_precondition_report_witness :
    lineRankOrderFilter1DChecked ([3, 1] : List ℤ) 0 0 1 =
      Except.error RankFilterError.DestinationTooSmall :=
  (checked_precondition_report ([3, 1] : List ℤ) 0 0 1).2.1 (by decide)

/-- C7: for every valid input, filtering the reversed source with the same parameters
and reversing the result yields the filter of the original source: the boundary
reflection is symmetric between the two ends. -/
theorem lineRankOrderFilter1D_reflect_symmetry {src : List α} (hl : ℕ) (rank : ℚ)
    (hlen : hl + 1 ≤ src.length) (h0 : 0 ≤ rank) (h1 : rank ≤ 1) :
    (lineRankOrderFilter1D src.reverse hl rank).reverse =
      lineRankOrderFilter1D src hl rank := by
  have hrk := rankPosOf_le hl h0 h1
  have e1 : lineRankOrderFilter1D src.reverse hl rank =
      bruteRankFilter src.reverse hl (rankPosOf rank hl) :=
    runFilter_eq_brute (by rw [List.length_reverse]; exact hlen) hrk
  have e2 : lineRankOrderFilter1D src hl rank =
      bruteRankFilter src hl (rankPosOf rank hl) := runFilter_eq_brute hlen hrk
  rw [e1, e2, brute_reverse hlen]

theorem lineRankOrderFilter1D_reflect_symmetry_witness :
    (lineRankOrderFilter1D (([5, 3, 8, 1, 9, 2, 7] : List ℤ).reverse) 2 1).reverse =
      lineRankOrderFilter1D ([5, 3, 8, 1, 9, 2, 7] : List ℤ) 2 1 :=
  lineRankOrderFilter1D_reflect_symmetry 2 1 (by decide) zero_le_one (le_refl 1)

/-- C8: for every valid input the roll-forward loop terminates after exactly
`|source| - 1` iterations: the reflection counter starts at the even value
`2 * half_length`, stays at `min (2 * half_length) (2 * (|source| - 1 - p))` after `p`
iterations (so each purely-reflective iteration lowers it by exactly 2, without
underflow, through the final `half_length` iterations after the
`|source| - half_length - 1` source-consuming ones), and in the final state the source
is exhausted, the counter is exactly 0, and the loop guard is false. -/
theorem rollLoop_terminates {src : List α} (hl : ℕ) (rank : ℚ)
    (hlen : hl + 1 ≤ src.length) (h0 : 0 ≤ rank) (h1 : rank ≤ 1) :
    (∀ p, p + 1 ≤ src.length →
      (stateAt src hl (rankPosOf rank hl) p).windowReflectPos =
        min (2 * hl) (2 * (src.length - 1 - p)) ∧
      (stateAt src hl (rankPosOf rank hl) p).srcRest = src.drop (p + hl + 1)) ∧
    rollLoop (src.length + 2 * hl) (initState src hl (rankPosOf rank hl)) =
      stateAt src hl (rankPosOf rank hl) (src.length - 1) ∧
    (stateAt src hl (rankPosOf rank hl) (src.length - 1)).srcRest = [] ∧
    (stateAt src hl (rankPosOf rank hl) (src.length - 1)).windowReflectPos = 0 := by
  have hrk := rankPosOf_le hl h0 h1
  have hfin := inv_stateAt hlen hrk (src.length - 1) (by omega)
  refine ⟨?_, ?_, ?_, ?_⟩
  · intro p hp
    have hInv := inv_stateAt hlen hrk p hp
    exact ⟨hInv.reflect_pos, hInv.src_rest⟩
  · exact rollLoop_runs hlen hrk (src.length + 2 * hl) 0 (by omega) (by omega)
  · rw [hfin.src_rest]
    exact List.drop_eq_nil_of_le (by omega)
  · rw [hfin.reflect_pos]
    omega

theorem rollLoop_terminates_witness :
    (stateAt ([3, 1, 4] : List ℤ) 1 (rankPosOf 1 1) (([3, 1, 4] : List ℤ).length - 1)
      ).windowReflectPos = 0 :=
  (rollLoop_terminates 1 1 (by decide) zero_le_one (le_refl 1)).2.2.2

/-- C9: for every valid input, after initialization and after every roll-forward
iteration the ordered window and the handle deque each hold exactly
`2 * half_length + 1` entries, with pairwise-distinct, strictly increasing sequence
indices along the deque (so the stored pairs are pairwise distinct and every
`insertSorted` of a fresh pair strictly grows the ordered structure, by exactly one). -/
theorem window_size_invariant {src : List α} (hl : ℕ) (rank : ℚ)
    (hlen : hl + 1 ≤ src.length) (h0 : 0 ≤ rank) (h1 : rank ≤ 1) :
    (∀ p, p + 1 ≤ src.length →
      (stateAt src hl (rankPosOf rank hl) p).sortedWindow.length = 2 * hl + 1 ∧
      (stateAt src hl (rankPosOf rank hl) p).windowIters.length = 2 * hl + 1 ∧
      (stateAt src hl (rankPosOf rank hl) p).windowIters.Pairwise
        (fun a b => a.2 < b.2) ∧
      (stateAt src hl (rankPosOf rank hl) p).sortedWindow.Nodup) ∧
    ∀ (x : α × ℕ) (l : List (α × ℕ)), (insertSorted x l).length = l.length + 1 := by
  have hrk := rankPosOf_le hl h0 h1
  refine ⟨?_, insertSorted_length⟩
  intro p hp
  have hInv := inv_stateAt hlen hrk p hp
  have hwlen : (stateAt src hl (rankPosOf rank hl) p).windowIters.length = 2 * hl + 1 := by
    have := congrArg List.length hInv.iters_fst
    rwa [List.length_map, reflWindow_length] at this
  have hnodupW : (stateAt src hl (rankPosOf rank hl) p).windowIters.Nodup := by
    refine hInv.iters_snd_mono.imp ?_
    intro a b hab e
    rw [e] at hab
    exact lt_irrefl _ hab
  refine ⟨?_, hwlen, hInv.iters_snd_mono, ?_⟩
  · rw [hInv.window_perm.length_eq, hwlen]
  · exact (hInv.window_perm.nodup_iff).mpr hnodupW

theorem window_size_invariant_witness :
    (stateAt ([3, 1, 4] : List ℤ) 1 (rankPosOf 1 1) 1).sortedWindow.length = 2 * 1 + 1 :=
  ((window_size_invariant 1 1 (by decide) zero_le_one (le_refl 1)).1 1 (by decide)).1

/-- C10: the cursor's ordinal is computed once, at setup, as
`rank_pos = round(rank * 2 * half_length)` with halves rounded away from zero;
since the argument is non-negative this is round-half-up: whenever
`rank * 2 * half_length` equals `k + 1/2` the result is `k + 1`. -/
theorem rankPosOf_rounds_half_up (rank : ℚ) (hl k : ℕ) (h0 : 0 ≤ rank)
    (hhalf : rank * (2 * hl) = k + 1 / 2) :
    rankPosOf rank hl = k + 1 := by
  unfold rankPosOf boostRound
  rw [if_neg (by simp only [not_lt]; exact mul_nonneg h0 (by positivity))]
  have h2 : rank * (2 * hl) + 1 / 2 = ((k + 1 : ℕ) : ℚ) := by
    rw [hhalf]
    push_cast
    ring
  rw [h2, Int.floor_natCast]
  simp

theorem rankPosOf_rounds_half_up_witness : rankPosOf (1 / 4) 1 = 0 + 1 :=
  rankPosOf_rounds_half_up (1 / 4) 1 0 (by norm_num) (by norm_num)

end RankFilter
